import Mathlib

/-!
Shallow embedding of the LogicRadar analytical core
(`src/utils/math_utils.py`, `src/engines/detective_engine.py`,
`src/engines/data_loader.py`, `src/engines/price_model.py`).

Conventions of the embedding:

* A pandas `Series` used as a DataFrame column is a positional list of
  optional rationals (`Col`); `none` plays the role of NaN.
* An indexed series (timestamp → value) is a list of `(timestamp, value)`
  pairs (`TSeries`); timestamps are integers, order-isomorphic to dates.
* Pearson correlations are represented through the strictly monotone odd
  bijection c ↦ c·|c| of [-1,1] (the signed square).  Pearson's value is
  cov/√(vx·vy); its signed square cov·|cov|/(vx·vy) is rational, is zero
  exactly when the correlation is zero, is NaN exactly when the
  correlation is NaN, and compares by absolute value exactly as the
  correlation does.  Every observable the source code derives from a
  correlation (zero tests, NaN tests, |·| comparisons, max-selection)
  is therefore computed faithfully over ℚ, with no square root needed.
* Exceptions raised by external fetch/align collaborators are modelled by
  `Except`; a caught `try/except` block is a `match` on that value.
-/

namespace LogicRadar

/-- A DataFrame column: positional values, `none` = NaN. -/
abbrev Col := List (Option ℚ)

/-! ## `src/utils/math_utils.py` -/

/-- Embeds `series.shift(lag)`: pandas shifts by positions, keeping the length;
the first `lag` slots become NaN and the last `lag` values fall off. -/
def shiftCol (lag : Nat) (c : Col) : Col :=
  (List.replicate lag none ++ c).take c.length

/-- The non-NaN values of a column (pandas skipna semantics). -/
def nonNulls (c : Col) : List ℚ :=
  c.filterMap id

/-- Scaled variance n·Σx² − (Σx)² of a value list: zero exactly when the
sample standard deviation is zero (no variation). -/
def varN (l : List ℚ) : ℚ :=
  (l.length : ℚ) * (l.map (fun x => x * x)).sum - l.sum * l.sum

/-- Embeds the test `series.std() == 0` for a column: pandas `std` (ddof=1, skipna) is a
number iff at least two non-NaN values exist, and is then zero iff they
show no variation; `NaN == 0` is false. -/
def stdZero (c : Col) : Prop :=
  2 ≤ (nonNulls c).length ∧ varN (nonNulls c) = 0

instance stdZeroDec (c : Col) : Decidable (stdZero c) := by
  unfold stdZero; exact inferInstance

/-- The pairwise-complete observations of two columns
(pandas `Series.corr` drops pairs where either value is NaN). -/
def pairsOf (t d : Col) : List (ℚ × ℚ) :=
  (t.zip d).filterMap (fun p =>
    match p with
    | (some a, some b) => some (a, b)
    | _ => none)

/-- Scaled covariance n·Σxy − Σx·Σy of a pair list. -/
def covN (p : List (ℚ × ℚ)) : ℚ :=
  (p.length : ℚ) * (p.map (fun q => q.1 * q.2)).sum
    - (p.map Prod.fst).sum * (p.map Prod.snd).sum

/-- Embeds `target.corr(driver)` in signed-square representation.
`none` = NaN: pandas Pearson is NaN exactly when either series has zero
variance over the pairwise-complete overlap (which subsumes an overlap of
fewer than two points). -/
def corrS (t d : Col) : Option ℚ :=
  if varN ((pairsOf t d).map Prod.fst) = 0 ∨ varN ((pairsOf t d).map Prod.snd) = 0 then
    none
  else
    some (covN (pairsOf t d) * |covN (pairsOf t d)| /
      (varN ((pairsOf t d).map Prod.fst) * varN ((pairsOf t d).map Prod.snd)))

/-- Body of one iteration of the lag loop in `compute_max_lag_correlation`:
the `corr` value computed for one candidate lag (`some 0` via the
zero-variance guard on the whole-series std, otherwise the Pearson value,
`none` = NaN). -/
def perLagCorr (t d : Col) (lag : Nat) : Option ℚ :=
  if stdZero (shiftCol lag d) ∨ stdZero t then some 0
  else corrS t (shiftCol lag d)

/-- The fixed candidate lag list of `compute_max_lag_correlation`. -/
def lags : List Nat := [0, 5, 10, 20, 40, 60]

/-- One step of the running-best update: skip NaN, replace only on a
strict increase of the absolute correlation. -/
def corrStep (t d : Col) (best : Nat × ℚ) (lag : Nat) : Nat × ℚ :=
  match perLagCorr t d lag with
  | none => best
  | some c => if |best.2| < |c| then (lag, c) else best

/-- Embeds `compute_max_lag_correlation(target, driver, max_lookback)`:
scans the fixed lag list ascending, starting from best = (0, 0).
The `maxLookback` argument appears in the source signature (default 60)
but is never used by the body. -/
def computeMaxLagCorrelation (t d : Col) (maxLookback : Nat) : Nat × ℚ :=
  lags.foldl (corrStep t d) (0, 0)

/-- A driver column is constant when all its non-missing values agree. -/
def constantCol (c : Col) : Prop :=
  ∀ x ∈ nonNulls c, ∀ y ∈ nonNulls c, x = y

instance constantColDec (c : Col) : Decidable (constantCol c) := by
  unfold constantCol; exact inferInstance

/-! ## `src/engines/detective_engine.py` -/

/-- One row of an aligned (Stock, Macro) table after `dropna()`:
(date, stock value, driver value), both values present. -/
abbrev AlignedRows := List (Int × ℚ × ℚ)

/-- The data environment of one candidate driver in a scan: its code and
the outcome of the external fetch-and-align step for it.  `Except.error`
models an exception raised while fetching/aligning that driver, which
`analyze` catches at driver granularity. -/
structure DriverInput where
  code : String
  fetch : Except String AlignedRows

/-- A finding dictionary appended by the scan loop.  `is_logical` and
`logic_reason` are added by the later validation pass; absence of the keys
before that pass is modelled by the defaults `none` / `""`. -/
structure Finding where
  code : String
  max_corr : ℚ
  recent_corr : ℚ
  best_lag : Nat
  sample_size : Nat
  is_logical : Option Bool
  logic_reason : String
deriving DecidableEq

/-- The regime cut `'2020-01-01'` of `df.loc['2020-01-01':]`; timestamps
are integers order-isomorphic to dates. -/
def regimeStart : Int := 20200101

/-- Embeds `df.loc['2020-01-01':]` on a sorted index. -/
def regimeRows (df : AlignedRows) : AlignedRows :=
  df.filter (fun r => decide (regimeStart ≤ r.1))

/-- The `'Stock'` column of an aligned table. -/
def stockColOf (df : AlignedRows) : Col :=
  df.map (fun r => some r.2.1)

/-- The `'Macro'` column of an aligned table. -/
def driverColOf (df : AlignedRows) : Col :=
  df.map (fun r => some r.2.2)

/-- Embeds `df.tail(n)`: the last `min n (length df)` rows. -/
def tailRows (n : Nat) (df : AlignedRows) : AlignedRows :=
  df.drop (df.length - n)

/-- Python `round` ties-to-even on a rational. -/
def rndHalfEven (x : ℚ) : Int :=
  if x - ⌊x⌋ < 1/2 then ⌊x⌋
  else if 1/2 < x - ⌊x⌋ then ⌊x⌋ + 1
  else if ⌊x⌋ % 2 = 0 then ⌊x⌋ else ⌊x⌋ + 1

/-- Python `round(x, 4)`.  In the embedding it is applied to the
signed-square representative of a correlation; every claim settled here is
invariant under that choice (rounding is monotone, so relative order of
stored scores can only collapse ties, never reverse). -/
def round4 (x : ℚ) : ℚ :=
  (rndHalfEven (x * 10000) : ℚ) / 10000

/-- The `try:` body of one iteration of the scan loop of
`DetectiveEngine.analyze`, from the fetch outcome to the inclusion
decision: `some f` models `findings.append(f)`, `none` models `continue`
(including the `except` path).  The source's inclusion cut is
`final_score > 0.15` with `final_score = max(abs(long), abs(recent))` in
Pearson units; under the signed-square representation the combined score
is the square of that maximum, so the faithful cut is 9/400 = 0.15²
(for r ≥ 0, r > 0.15 ⟺ r² > 9/400).  `PNICKUSDM` is the hardcoded
force-include code.  The `np.isnan` guards of the source normalise NaN
scores to 0.0; a `computeMaxLagCorrelation` result is never NaN (its
running best starts at 0 and only non-NaN scores replace it), so they
are identities here. -/
def processDriver (d : DriverInput) : Option Finding :=
  match d.fetch with
  | .error _ => none
  | .ok df =>
    if df.length < 30 then none
    else
      let df2 := regimeRows df
      if df2.length < 30 then none
      else
        let lc := computeMaxLagCorrelation (stockColOf df2) (driverColOf df2) 60
        let recentDf := tailRows 60 df2
        let recent_corr : ℚ :=
          if 20 < recentDf.length then
            (computeMaxLagCorrelation (stockColOf recentDf) (driverColOf recentDf) 10).2
          else 0
        let final_score := max |lc.2| |recent_corr|
        if 9/400 < final_score ∨ d.code = "PNICKUSDM" then
          some { code := d.code, max_corr := round4 lc.2, recent_corr := round4 recent_corr,
                 best_lag := lc.1, sample_size := df2.length,
                 is_logical := none, logic_reason := "" }
        else none

/-- The scan loop over the driver universe: per-driver failures are
skipped, the loop continues. -/
def scanLoop (inputs : List DriverInput) : List Finding :=
  inputs.filterMap processDriver

/-- The sort key `max(abs(x['max_corr']), abs(x['recent_corr']))`. -/
def findingKey (f : Finding) : ℚ :=
  max |f.max_corr| |f.recent_corr|

/-- Stable insertion for a descending sort: an element is placed before
the first strictly smaller key and after earlier elements of equal key. -/
def insertFindingDesc (f : Finding) : List Finding → List Finding
  | [] => [f]
  | g :: gs =>
    if findingKey g ≤ findingKey f then f :: g :: gs
    else g :: insertFindingDesc f gs

/-- Embeds `findings.sort(key=..., reverse=True)`: Python sorting is stable; any
stable descending sort by the same key is extensionally identical, so the
embedding uses stable insertion sort. -/
def sortFindingsDesc (l : List Finding) : List Finding :=
  l.foldr insertFindingDesc []

/-- The per-target scan environment: target ticker, whether the target
fetch came back empty, and the candidate drivers with their data. -/
structure ScanEnv where
  ticker : String
  stockEmpty : Bool
  inputs : List DriverInput

/-- The `skip_validation` branch of the validation pass:
`f['is_logical'] = None; f['logic_reason'] = "Pending Verification"`. -/
def pendingMark (f : Finding) : Finding :=
  { f with is_logical := none, logic_reason := "Pending Verification" }

/-- Embeds `DetectiveEngine.analyze`: early-return `[]` on an empty target fetch,
scan loop, stable descending sort, then the validation pass (the external
validator is an injected function; with `skipValidation` every finding is
kept and marked pending). -/
def analyze (env : ScanEnv) (skipValidation : Bool)
    (validator : String → String → Bool × String) : List Finding :=
  if env.stockEmpty then []
  else
    (sortFindingsDesc (scanLoop env.inputs)).filterMap (fun f =>
      if skipValidation then some (pendingMark f)
      else
        let v := validator env.ticker f.code
        if v.1 then some { f with is_logical := some v.1, logic_reason := v.2 }
        else none)

/-- The `final_score` a driver would be scored with, `none` when the
driver is skipped before scoring (fetch failure or too little data) —
the scoring part of `processDriver`. -/
def driverScore (d : DriverInput) : Option ℚ :=
  match d.fetch with
  | .error _ => none
  | .ok df =>
    if df.length < 30 then none
    else
      let df2 := regimeRows df
      if df2.length < 30 then none
      else
        let lc := computeMaxLagCorrelation (stockColOf df2) (driverColOf df2) 60
        let recentDf := tailRows 60 df2
        let recent_corr : ℚ :=
          if 20 < recentDf.length then
            (computeMaxLagCorrelation (stockColOf recentDf) (driverColOf recentDf) 10).2
          else 0
        some (max |lc.2| |recent_corr|)

/-! ## `src/engines/data_loader.py` -/

/-- An indexed series as fetched: (timestamp, value) with `none` = NaN. -/
abbrev TSeries := List (Int × Option ℚ)

/-- The index of a series. -/
def tsKeys (s : TSeries) : List Int :=
  s.map Prod.fst

/-- Value of a series at a timestamp (`none` when absent or NaN). -/
def tsLookup (s : TSeries) (t : Int) : Option ℚ :=
  match s.find? (fun r => decide (r.1 = t)) with
  | some r => r.2
  | none => none

/-- Sorted deduplicated insertion of a key. -/
def insertKey (t : Int) : List Int → List Int
  | [] => [t]
  | u :: us =>
    if t < u then t :: u :: us
    else if t = u then u :: us
    else u :: insertKey t us

/-- The sorted set of keys of a list (the index union used by pandas
outer alignment plus `sort_index()`). -/
def sortDedup (l : List Int) : List Int :=
  l.foldr insertKey []

/-- A two-column aligned table before `dropna`. -/
abbrev PairRows := List (Int × Option ℚ × Option ℚ)

/-- Embeds `pd.concat([stock, macro], axis=1)` + `sort_index()`: one row per
timestamp of the sorted union of both indexes. -/
def concatOuter (a b : TSeries) : PairRows :=
  (sortDedup (tsKeys a ++ tsKeys b)).map (fun t => (t, tsLookup a t, tsLookup b t))

/-- The last valid driver observation strictly before `t`. -/
def lastKnownBefore (rows : PairRows) (t : Int) : Option (Int × ℚ) :=
  rows.foldl (fun acc r =>
    match r.2.2 with
    | some v => if r.1 < t then some (r.1, v) else acc
    | none => acc) none

/-- The first valid driver observation strictly after `t`. -/
def firstKnownAfter (rows : PairRows) (t : Int) : Option (Int × ℚ) :=
  rows.foldr (fun r acc =>
    match r.2.2 with
    | some v => if t < r.1 then some (r.1, v) else acc
    | none => acc) none

/-- Embeds `df['Macro'].interpolate(method='time')`: time-weighted linear
interpolation between the nearest valid neighbours; trailing NaNs take the
last valid value (pandas' default forward limit direction), leading NaNs
stay NaN. -/
def interpTime (rows : PairRows) : PairRows :=
  rows.map (fun r =>
    match r.2.2 with
    | some v => (r.1, r.2.1, some v)
    | none =>
      match lastKnownBefore rows r.1, firstKnownAfter rows r.1 with
      | some (t0, v0), some (t1, v1) =>
        (r.1, r.2.1, some (v0 + (v1 - v0) * ((r.1 - t0 : Int) : ℚ) / ((t1 - t0 : Int) : ℚ)))
      | some (_, v0), none => (r.1, r.2.1, some v0)
      | _, _ => (r.1, r.2.1, none))

/-- Embeds `df['Macro'].ffill()`. -/
def ffillRows (rows : PairRows) : PairRows :=
  (rows.foldl (fun (acc : PairRows × Option ℚ) r =>
    match r.2.2 with
    | some v => (acc.1 ++ [(r.1, r.2.1, some v)], some v)
    | none => (acc.1 ++ [(r.1, r.2.1, acc.2)], acc.2)) ([], none)).1

/-- Embeds `df['Macro'].bfill()`. -/
def bfillRows (rows : PairRows) : PairRows :=
  (rows.foldr (fun r (acc : PairRows × Option ℚ) =>
    match r.2.2 with
    | some v => ((r.1, r.2.1, some v) :: acc.1, some v)
    | none => ((r.1, r.2.1, acc.2) :: acc.1, acc.2)) ([], none)).1

/-- Embeds `df['Macro'].mean()` (skipna). -/
def meanDriverCol (rows : PairRows) : ℚ :=
  let vs := rows.filterMap (fun r => r.2.2)
  vs.sum / (vs.length : ℚ)

/-- Embeds `DataLoader.fetch_and_align` from the two fetched series onward.
`z i` is the `i`-th unit draw of the injected noise generator;
`np.random.normal(loc=0, scale=s)` is modelled as `z i * s` and raises
`ValueError` when the scale is negative.  An empty input series yields a
normally returned empty table, not an exception. -/
def fetchAndAlign (stockS econS : TSeries) (z : Nat → ℚ) : Except String AlignedRows :=
  if stockS.isEmpty ∨ econS.isEmpty then .ok []
  else
    let rows := concatOuter stockS econS
    let rows := bfillRows (ffillRows (interpTime rows))
    let scale := meanDriverCol rows * (1 / 1000)
    if scale < 0 then .error "ValueError: scale < 0"
    else
      let noisy := rows.enum.map (fun p =>
        (p.2.1, p.2.2.1, p.2.2.2.map (fun v => v + z p.1 * scale)))
      .ok (noisy.filterMap (fun r =>
        match r.2.1, r.2.2 with
        | some a, some b => some (r.1, a, b)
        | _, _ => none))

/-! ## `src/engines/price_model.py` -/

/-- One selected driver handed to `PriceModel.load_data`:
`{code: {'series': ..., 'lag': ...}}`. -/
structure DriverSpec where
  code : String
  lag : Nat
  series : TSeries

/-- Embeds `series.shift(lag)` on an indexed series: pandas shifts the values by
`lag` positions within the series' own index; the index itself never
grows. -/
def shiftTS (lag : Nat) (s : TSeries) : TSeries :=
  (s.map Prod.fst).zip (shiftCol lag (s.map Prod.snd))

/-- A DataFrame: a column count and rows (timestamp, cell values). -/
structure Frame where
  cols : Nat
  rows : List (Int × List (Option ℚ))

/-- The index of a frame. -/
def frameKeys (f : Frame) : List Int :=
  f.rows.map Prod.fst

/-- The row of a frame at a timestamp (all-NaN when the timestamp is not
in the index, as in an outer join). -/
def rowAt (f : Frame) (t : Int) : List (Option ℚ) :=
  match f.rows.find? (fun r => decide (r.1 = t)) with
  | some r => r.2
  | none => List.replicate f.cols none

/-- Embeds `df.join(series, how='outer')`: rows over the sorted union of the
indexes, the new column appended. -/
def joinTS (f : Frame) (s : TSeries) : Frame :=
  { cols := f.cols + 1,
    rows := (sortDedup (frameKeys f ++ tsKeys s)).map (fun t => (t, rowAt f t ++ [tsLookup s t])) }

/-- Embeds `pd.DataFrame(series)`. -/
def frameOfTS (s : TSeries) : Frame :=
  { cols := 1, rows := s.map (fun r => (r.1, [r.2])) }

/-- Embeds `series.dropna()`. -/
def dropnaTS (s : TSeries) : List (Int × ℚ) :=
  s.filterMap (fun r => r.2.map (fun v => (r.1, v)))

/-- Left-join lookup of the actual price at a timestamp. -/
def lookupQ (s : List (Int × ℚ)) (t : Int) : Option ℚ :=
  (s.find? (fun r => decide (r.1 = t))).map Prod.snd

/-- The training table before filtering: `Y` column joined outer with one
shifted column per driver, in driver order. -/
def trainJoined (stockC : List (Int × ℚ)) (drivers : List DriverSpec) : Frame :=
  drivers.foldl (fun df d => joinTS df (shiftTS d.lag d.series))
    { cols := 1, rows := stockC.map (fun r => (r.1, [some r.2])) }

/-- Embeds `df.loc[cutoff:].dropna()`: rows at or after the cutoff with every
cell present. -/
def completeRows (f : Frame) (cutoff : Int) : List (Int × List (Option ℚ)) :=
  (f.rows.filter (fun r => decide (cutoff ≤ r.1))).filter (fun r => r.2.all Option.isSome)

/-- The full feature frame of step 4 of `train`: only the shifted driver
columns, built by the same fold as the source (which starts from an empty
DataFrame and replaces it while it is empty). -/
def fullJoined (drivers : List DriverSpec) : Frame :=
  drivers.foldl (fun acc d =>
    if acc.rows.isEmpty then frameOfTS (shiftTS d.lag d.series)
    else joinTS acc (shiftTS d.lag d.series))
    { cols := 0, rows := [] }

/-- Embeds `model.predict` on one feature row for a fitted linear model. -/
def predictRow (intercept : ℚ) (coefs : List ℚ) (x : List ℚ) : ℚ :=
  intercept + ((coefs.zip x).map (fun p => p.1 * p.2)).sum

/-- Embeds `sklearn.metrics.r2_score` on the training rows. -/
def r2Score (y yhat : List ℚ) : ℚ :=
  let ybar := y.sum / (y.length : ℚ)
  1 - ((y.zip yhat).map (fun p => (p.1 - p.2) ^ 2)).sum / ((y.map (fun v => (v - ybar) ^ 2)).sum)

/-- Embeds the metrics dictionary returned by `train`. -/
structure Metrics where
  R2 : ℚ
  Intercept : ℚ
  Coefficients : List (String × ℚ)
  Max_Lag : Nat

/-- One row of `train`'s result DataFrame. -/
structure ResultRow where
  t : Int
  Fair_Value : ℚ
  Actual : Option ℚ
  Deviation : Option ℚ

/-- Embeds `PriceModel.load_data` + `PriceModel.train`.  The ordinary
least-squares solver of the external sklearn collaborator is the injected
`fit` capability (feature rows, targets) ↦ (intercept, coefficients); every
claim settled about `train` holds for an arbitrary solver.  Returns `none`
for the soft-failure `(None, None)` path. -/
def train (stockSeries : TSeries) (drivers : List DriverSpec) (cutoff : Int)
    (fit : List (List ℚ) → List ℚ → ℚ × List ℚ) : Option (Metrics × List ResultRow) :=
  if (completeRows (trainJoined (dropnaTS stockSeries) drivers) cutoff).isEmpty then none
  else
    let stockC := dropnaTS stockSeries
    let dfTrain := completeRows (trainJoined stockC drivers) cutoff
    let vals := dfTrain.map (fun r => r.2.filterMap id)
    let y : List ℚ := vals.filterMap List.head?
    let x : List (List ℚ) := vals.map (fun v => v.drop 1)
    let fitted := fit x y
    let r2 := r2Score y (x.map (predictRow fitted.1 fitted.2))
    let maxLag := drivers.foldl (fun m d => if m < d.lag then d.lag else m) 0
    let fullX := completeRows (fullJoined drivers) cutoff
    let result := fullX.map (fun r =>
      let fv := predictRow fitted.1 fitted.2 (r.2.filterMap id)
      let actual := lookupQ stockC r.1
      { t := r.1, Fair_Value := fv, Actual := actual,
        Deviation := actual.map (fun a => (a - fv) / fv) : ResultRow })
    some ({ R2 := r2, Intercept := fitted.1,
            Coefficients := (drivers.map (fun d => d.code)).zip fitted.2,
            Max_Lag := maxLag }, result)

/-- The timestamps carrying a fair-value prediction in a `train` result
(empty for the soft-failure path). -/
def resultTimestamps (o : Option (Metrics × List ResultRow)) : List Int :=
  match o with
  | some p => p.2.map (fun r => r.t)
  | none => []

/-- Invariant of the frame built by the feature-construction folds of
`train`: one column per processed driver, the index is the union of the
drivers' indexes, every row holds the shifted lookups of its timestamp,
and the index is duplicate-free. -/
def frameInv (ds : List DriverSpec) (f : Frame) : Prop :=
  f.cols = ds.length ∧
  (∀ t : Int, t ∈ frameKeys f ↔ ∃ d ∈ ds, t ∈ tsKeys d.series) ∧
  (∀ r ∈ f.rows, r.2 = ds.map (fun d => tsLookup (shiftTS d.lag d.series) r.1)) ∧
  (frameKeys f).Nodup

/-! ## Concrete inputs used by counterexamples and witnesses -/

/-- C3: target with overall variation whose values agree on the overlap. -/
def exC3T : Col := [some 1, some 1, some 2]

/-- C3: driver missing its last observation. -/
def exC3D : Col := [some 5, some 7, none]

/-- C4: target whose values agree wherever the driver is observed. -/
def exC4T : Col := [some 1, some 1, some 2, some 3, some 4, some 5, some 1, some 1]

/-- C4: driver observed only at positions 0, 1, 6, 7. -/
def exC4D : Col := [some 7, some 7, none, none, none, none, some 8, some 9]

/-- C2: a 26-observation target window. -/
def exC2T : Col := (List.range 26).map (fun i => some ((i * i % 7 : Nat) : ℚ))

/-- C2: a driver whose first six values replicate the target's values
twenty positions later, so that lag 20 correlates perfectly. -/
def exC2D : Col := (List.range 26).map (fun i =>
  if i < 6 then some (((i + 20) * (i + 20) % 7 : Nat) : ℚ)
  else some ((i % 3 : Nat) : ℚ))

/-- A deterministic value sequence for scan examples. -/
def vseq (i : Nat) : ℚ := ((i * i % 11 : Nat) : ℚ)

/-- Holds 36 aligned in-regime rows on which the driver equals the target. -/
def exDf : AlignedRows :=
  (List.range 36).map (fun i => (regimeStart + Int.ofNat i, vseq i, vseq i))

/-- A perfectly correlated candidate driver. -/
def exInput : DriverInput := { code := "CU", fetch := .ok exDf }

/-- Holds 36 aligned in-regime rows with a constant driver (score 0). -/
def exDfC : AlignedRows :=
  (List.range 36).map (fun i => (regimeStart + Int.ofNat i, vseq i, (7 : ℚ)))

/-- A constant, hence score-0, candidate driver. -/
def exInputC : DriverInput := { code := "CU", fetch := .ok exDfC }

/-- A candidate driver whose fetch raises. -/
def exInputE : DriverInput := { code := "BAD", fetch := .error "boom" }

/-- A scan environment holding the three example drivers. -/
def exEnvW : ScanEnv :=
  { ticker := "T", stockEmpty := false, inputs := [exInputC, exInputE, exInput] }

/-- A scan environment holding only the score-0 driver. -/
def exEnvC : ScanEnv :=
  { ticker := "T", stockEmpty := false, inputs := [exInputC] }

/-- A mock validator. -/
def exValidator : String → String → Bool × String :=
  fun _ _ => (true, "Auto-approved (Mock)")

/-- C1/C5: target priced on days 0..9. -/
def exStock : TSeries := (List.range 10).map (fun i => (Int.ofNat i, some ((i : ℚ) + 1)))

/-- C1: a driver with lag 5 whose series runs through day 19, ten days
past the target's last day. -/
def exDrv : DriverSpec :=
  { code := "M", lag := 5,
    series := (List.range 20).map (fun i => (Int.ofNat i, some ((i : ℚ) * 2 + 3))) }

/-- A trivial injected regression solver (all claims about `train` hold
for an arbitrary solver). -/
def exFit : List (List ℚ) → List ℚ → ℚ × List ℚ := fun _ _ => (0, [])

/-- C5: a three-day target. -/
def exStockB : TSeries := [(0, some 1), (1, some 2), (2, some 3)]

/-- C5: a driver with no timestamp overlap with `exStockB`. -/
def exDrvB : DriverSpec := { code := "M", lag := 0, series := [(100, some 5), (101, some 6)] }

/-! ## Theorems -/

attribute [local semireducible] Rat.add Rat.mul Rat.sub Rat.inv

set_option maxRecDepth 40000

theorem corrStep_none {t d : Col} {lag : Nat} (b : Nat × ℚ)
    (h : perLagCorr t d lag = none) : corrStep t d b lag = b := by
  simp [corrStep, h]

theorem corrStep_eq_or (t d : Col) (b : Nat × ℚ) (lag : Nat) :
    corrStep t d b lag = b ∨
      ∃ c, perLagCorr t d lag = some c ∧ |b.2| < |c| ∧ corrStep t d b lag = (lag, c) := by
  cases h : perLagCorr t d lag with
  | none => exact Or.inl (corrStep_none b h)
  | some c =>
    by_cases hlt : |b.2| < |c|
    · exact Or.inr ⟨c, rfl, hlt, by simp [corrStep, h, hlt]⟩
    · exact Or.inl (by simp [corrStep, h, hlt])

theorem corrStep_self_le {t d : Col} {b : Nat × ℚ} {lag : Nat}
    (h : corrStep t d b lag = b) :
    ∀ c, perLagCorr t d lag = some c → |c| ≤ |b.2| := by
  intro c hc
  by_contra hlt
  push_neg at hlt
  have hstep : corrStep t d b lag = (lag, c) := by simp [corrStep, hc, hlt]
  have hb : b = (lag, c) := h.symm.trans hstep
  rw [hb] at hlt
  exact absurd hlt (lt_irrefl _)

theorem abs_le_foldl_corrStep (t d : Col) (L : List Nat) (b : Nat × ℚ) :
    |b.2| ≤ |(L.foldl (corrStep t d) b).2| := by
  induction L generalizing b with
  | nil => simp
  | cons a L ih =>
    simp only [List.foldl_cons]
    refine le_trans ?_ (ih (corrStep t d b a))
    rcases corrStep_eq_or t d b a with h | ⟨c, _, hlt, h⟩
    · rw [h]
    · rw [h]; exact le_of_lt hlt

theorem foldl_corrStep_eq_or_lt (t d : Col) (L : List Nat) (b : Nat × ℚ) :
    L.foldl (corrStep t d) b = b ∨ |b.2| < |(L.foldl (corrStep t d) b).2| := by
  induction L generalizing b with
  | nil => exact Or.inl rfl
  | cons a L ih =>
    simp only [List.foldl_cons]
    rcases corrStep_eq_or t d b a with h | ⟨c, _, hlt, h⟩
    · rw [h]; exact ih b
    · rw [h]
      exact Or.inr (lt_of_lt_of_le hlt (abs_le_foldl_corrStep t d L (a, c)))

theorem foldl_corrStep_fst (t d : Col) (L : List Nat) (b : Nat × ℚ) :
    (L.foldl (corrStep t d) b).1 = b.1 ∨ (L.foldl (corrStep t d) b).1 ∈ L := by
  induction L generalizing b with
  | nil => exact Or.inl rfl
  | cons a L ih =>
    simp only [List.foldl_cons]
    rcases corrStep_eq_or t d b a with h | ⟨c, _, _, h⟩
    · rw [h]
      rcases ih b with h1 | h1
      · exact Or.inl h1
      · exact Or.inr (List.mem_cons_of_mem a h1)
    · rw [h]
      rcases ih (a, c) with h1 | h1
      · exact Or.inr (by rw [h1]; exact List.mem_cons_self a L)
      · exact Or.inr (List.mem_cons_of_mem a h1)

theorem foldl_corrStep_max (t d : Col) (L : List Nat) (b : Nat × ℚ) :
    ∀ lag ∈ L, ∀ c, perLagCorr t d lag = some c →
      |c| ≤ |(L.foldl (corrStep t d) b).2| := by
  induction L generalizing b with
  | nil => intro lag h; exact absurd h (List.not_mem_nil lag)
  | cons a L ih =>
    intro lag hmem c hc
    simp only [List.foldl_cons]
    rcases List.mem_cons.mp hmem with rfl | hmem'
    · rcases corrStep_eq_or t d b lag with h | ⟨c', hc', hlt, h⟩
      · rw [h]
        exact le_trans (corrStep_self_le h c hc) (abs_le_foldl_corrStep t d L b)
      · have hcc : c = c' := Option.some.inj (hc.symm.trans hc')
        rw [h, hcc]
        exact abs_le_foldl_corrStep t d L (lag, c')
    · exact ih (corrStep t d b a) lag hmem' c hc

theorem foldl_corrStep_all_none (t d : Col) (L : List Nat) (b : Nat × ℚ)
    (h : ∀ lag ∈ L, perLagCorr t d lag = none) :
    L.foldl (corrStep t d) b = b := by
  induction L generalizing b with
  | nil => rfl
  | cons a L ih =>
    simp only [List.foldl_cons]
    rw [corrStep_none b (h a (List.mem_cons_self a L))]
    exact ih b (fun lag hl => h lag (List.mem_cons_of_mem a hl))

theorem foldl_corrStep_all_trivial (t d : Col) (L : List Nat)
    (h : ∀ lag ∈ L, perLagCorr t d lag = some 0 ∨ perLagCorr t d lag = none) :
    L.foldl (corrStep t d) (0, 0) = (0, 0) := by
  induction L with
  | nil => rfl
  | cons a L ih =>
    simp only [List.foldl_cons]
    have hstep : corrStep t d (0, 0) a = (0, 0) := by
      rcases h a (List.mem_cons_self a L) with h0 | h0
      · simp [corrStep, h0]
      · exact corrStep_none _ h0
    rw [hstep]
    exact ih (fun lag hl => h lag (List.mem_cons_of_mem a hl))

theorem foldl_corrStep_attained (t d : Col) (L : List Nat) (b : Nat × ℚ) :
    L.foldl (corrStep t d) b = b ∨
      ∃ pre post, L = pre ++ (L.foldl (corrStep t d) b).1 :: post ∧
        perLagCorr t d (L.foldl (corrStep t d) b).1 = some (L.foldl (corrStep t d) b).2 ∧
        ∀ lag ∈ pre, ∀ c, perLagCorr t d lag = some c →
          |c| < |(L.foldl (corrStep t d) b).2| := by
  induction L generalizing b with
  | nil => exact Or.inl rfl
  | cons a L ih =>
    simp only [List.foldl_cons]
    rcases corrStep_eq_or t d b a with h | ⟨c, hc, hlt, h⟩
    · rw [h]
      rcases foldl_corrStep_eq_or_lt t d L b with heq | hlt2
      · exact Or.inl heq
      · rcases ih b with heq | ⟨pre, post, hdecomp, hscore, hpre⟩
        · rw [heq] at hlt2; exact absurd hlt2 (lt_irrefl _)
        · refine Or.inr ⟨a :: pre, post,
            by rw [List.cons_append]; exact congrArg (List.cons a) hdecomp, hscore, ?_⟩
          intro lag hmem c' hc'
          rcases List.mem_cons.mp hmem with rfl | hmem'
          · exact lt_of_le_of_lt (corrStep_self_le h c' hc') hlt2
          · exact hpre lag hmem' c' hc'
    · rw [h]
      rcases foldl_corrStep_eq_or_lt t d L (a, c) with heq | hlt2
      · rw [heq]
        exact Or.inr ⟨[], L, rfl, hc, fun lag hl => absurd hl (List.not_mem_nil lag)⟩
      · rcases ih (a, c) with heq | ⟨pre, post, hdecomp, hscore, hpre⟩
        · rw [heq] at hlt2; exact absurd hlt2 (lt_irrefl _)
        · refine Or.inr ⟨a :: pre, post,
            by rw [List.cons_append]; exact congrArg (List.cons a) hdecomp, hscore, ?_⟩
          intro lag hmem c' hc'
          rcases List.mem_cons.mp hmem with rfl | hmem'
          · have hcc : c' = c := Option.some.inj (hc'.symm.trans hc)
            rw [hcc]
            exact hlt2
          · exact hpre lag hmem' c' hc'

/-- C10: `compute_max_lag_correlation` never reads its `max_lookback`
argument, so its result is the same for any two values of it: both the
long-window and the short-window call search the same fixed lag list
[0, 5, 10, 20, 40, 60]. -/
theorem claim_C10 (t d : Col) (a b : Nat) :
    computeMaxLagCorrelation t d a = computeMaxLagCorrelation t d b := rfl

theorem varN_const {l : List ℚ} {v : ℚ} (h : ∀ x ∈ l, x = v) : varN l = 0 := by
  have hs : l.sum = (l.length : ℚ) * v := by
    rw [List.sum_eq_card_nsmul l v h, nsmul_eq_mul]
  have hs2 : (l.map (fun x => x * x)).sum = (l.length : ℚ) * (v * v) := by
    have h2 : ∀ x ∈ l.map (fun x => x * x), x = v * v := by
      intro x hx
      obtain ⟨y, hy, rfl⟩ := List.mem_map.mp hx
      rw [h y hy]
    rw [List.sum_eq_card_nsmul _ _ h2, nsmul_eq_mul, List.length_map]
  rw [varN, hs, hs2]
  ring

theorem nonNulls_shiftCol_subset {lag : Nat} {d : Col} :
    ∀ x ∈ nonNulls (shiftCol lag d), x ∈ nonNulls d := by
  intro x hx
  obtain ⟨o, ho, hox⟩ := List.mem_filterMap.mp hx
  have ho' : o ∈ List.replicate lag none ++ d := List.mem_of_mem_take ho
  rcases List.mem_append.mp ho' with hrep | hd
  · rw [List.eq_of_mem_replicate hrep] at hox
    exact absurd hox (by simp)
  · exact List.mem_filterMap.mpr ⟨o, hd, hox⟩

theorem pairsOf_snd_sublist (t : Col) : ∀ c : Col,
    ((pairsOf t c).map Prod.snd).Sublist (nonNulls c) := by
  induction t with
  | nil => intro c; simp [pairsOf]
  | cons a t ih =>
    intro c
    cases c with
    | nil => simp [pairsOf]
    | cons b c =>
      cases a with
      | none =>
        cases b with
        | none =>
          simpa [pairsOf, nonNulls, List.filterMap_cons] using ih c
        | some vb =>
          have := ih c
          simp only [pairsOf, nonNulls, List.zip_cons_cons, List.filterMap_cons] at this ⊢
          exact this.cons vb
      | some va =>
        cases b with
        | none =>
          simpa [pairsOf, nonNulls, List.filterMap_cons] using ih c
        | some vb =>
          have := ih c
          simp only [pairsOf, nonNulls, List.zip_cons_cons, List.filterMap_cons,
            List.map_cons] at this ⊢
          exact this.cons₂ vb

theorem constant_perLagCorr {d : Col} (hconst : constantCol d) (t : Col) (lag : Nat) :
    perLagCorr t d lag = some 0 ∨ perLagCorr t d lag = none := by
  by_cases hz : stdZero (shiftCol lag d) ∨ stdZero t
  · left; unfold perLagCorr; rw [if_pos hz]
  · right
    unfold perLagCorr
    rw [if_neg hz]
    unfold corrS
    rw [if_pos]
    right
    set ys := (pairsOf t (shiftCol lag d)).map Prod.snd with hys
    have hsub : ∀ y ∈ ys, y ∈ nonNulls d := by
      intro y hy
      exact nonNulls_shiftCol_subset y ((pairsOf_snd_sublist t (shiftCol lag d)).subset hy)
    cases hlist : ys with
    | nil => simp [varN]
    | cons y0 ytl =>
      refine varN_const (v := y0) ?_
      intro x hx
      rw [← hlist] at hx
      exact hconst x (hsub x hx) y0 (hsub y0 (by rw [hlist]; exact List.mem_cons_self y0 ytl))

/-- C3 counterexample: at lag 0 the compared window (the pairwise-complete
overlap) has zero target variance, yet the per-lag correlation is NaN and
skipped — not defined as 0 — because the source's guard tests the std of
the whole series, which is nonzero here. -/
theorem claim_C3_counterexample :
    varN ((pairsOf exC3T (shiftCol 0 exC3D)).map Prod.fst) = 0 ∧
    ¬ stdZero exC3T ∧
    ¬ stdZero (shiftCol 0 exC3D) ∧
    perLagCorr exC3T exC3D 0 = none ∧
    perLagCorr exC3T exC3D 0 ≠ some 0 := by decide

/-- C3 amended: the zero-variance guard applies to the std of the whole
(shifted driver / target) series over its non-missing values, not to the
compared overlap window; with the guard off, a zero-variance overlap
yields NaN, and every NaN per-lag correlation is skipped (the running
best is left unchanged) rather than treated as 0; consequently, for a
constant-valued driver `best_lag_correlation` still returns correlation
exactly 0, every lag scoring either exactly 0 (by the guard) or NaN
(skipped). -/
theorem claim_C3 (t d : Col) (lag : Nat) :
    (stdZero (shiftCol lag d) ∨ stdZero t → perLagCorr t d lag = some 0) ∧
    (∀ b : Nat × ℚ, perLagCorr t d lag = none → corrStep t d b lag = b) ∧
    (constantCol d → (computeMaxLagCorrelation t d 60).2 = 0) := by
  refine ⟨?_, ?_, ?_⟩
  · intro h
    unfold perLagCorr
    rw [if_pos h]
  · intro b h
    exact corrStep_none b h
  · intro hconst
    have : computeMaxLagCorrelation t d 60 = (0, 0) :=
      foldl_corrStep_all_trivial t d lags (fun lag' _ => constant_perLagCorr hconst t lag')
    rw [this]

/-- C3 witness: a constant driver against a varying target scores
correlation exactly 0. -/
theorem claim_C3_witness :
    (computeMaxLagCorrelation [some 1, some 2, some 3] [some 7, some 7, some 7] 60).2 = 0 :=
  (claim_C3 [some 1, some 2, some 3] [some 7, some 7, some 7] 0).2.2 (by decide)

/-- C4 counterexample: lag 5 is the only candidate with a valid score
(exactly 0, via the zero-variance guard); every other candidate is NaN.
The claim then requires the result (5, 0), but the scan's strict-`>`
update never replaces the initial best (0, 0), so the returned lag 0 is
not a lag with a valid score. -/
theorem claim_C4_counterexample :
    perLagCorr exC4T exC4D 0 = none ∧
    perLagCorr exC4T exC4D 5 = some 0 ∧
    perLagCorr exC4T exC4D 10 = none ∧
    perLagCorr exC4T exC4D 20 = none ∧
    perLagCorr exC4T exC4D 40 = none ∧
    perLagCorr exC4T exC4D 60 = none ∧
    computeMaxLagCorrelation exC4T exC4D 60 = (0, 0) ∧
    computeMaxLagCorrelation exC4T exC4D 60 ≠ (5, 0) := by decide

/-- C4 amended: the returned lag is always one of the fixed candidates;
the returned correlation's absolute value bounds every valid candidate
score; when the returned correlation is nonzero it is the valid score of
the returned lag and every smaller candidate's valid score is strictly
smaller in absolute value (ties at a nonzero maximum therefore resolve to
the smallest lag); but whenever the best valid score is 0 — not only when
every candidate is invalid — the strict-`>` scan returns the initial
state (0, 0), whether or not lag 0 has a valid score. -/
theorem claim_C4 (t d : Col) (look : Nat) :
    (computeMaxLagCorrelation t d look).1 ∈ lags ∧
    (∀ lag ∈ lags, ∀ c, perLagCorr t d lag = some c →
      |c| ≤ |(computeMaxLagCorrelation t d look).2|) ∧
    ((computeMaxLagCorrelation t d look).2 = 0 →
      computeMaxLagCorrelation t d look = (0, 0)) ∧
    ((computeMaxLagCorrelation t d look).2 ≠ 0 →
      perLagCorr t d (computeMaxLagCorrelation t d look).1
          = some (computeMaxLagCorrelation t d look).2 ∧
      ∀ lag ∈ lags, lag < (computeMaxLagCorrelation t d look).1 →
        ∀ c, perLagCorr t d lag = some c →
          |c| < |(computeMaxLagCorrelation t d look).2|) ∧
    ((∀ lag ∈ lags, perLagCorr t d lag = none) →
      computeMaxLagCorrelation t d look = (0, 0)) := by
  refine ⟨?_, ?_, ?_, ?_, ?_⟩
  · rcases foldl_corrStep_fst t d lags (0, 0) with h | h
    · rw [computeMaxLagCorrelation, h]; decide
    · exact h
  · exact fun lag hl c hc => foldl_corrStep_max t d lags (0, 0) lag hl c hc
  · intro h0
    rcases foldl_corrStep_eq_or_lt t d lags (0, 0) with h | h
    · exact h
    · rw [computeMaxLagCorrelation] at h0
      rw [h0] at h
      simp at h
  · intro hne
    rcases foldl_corrStep_attained t d lags (0, 0) with h | ⟨pre, post, hdecomp, hscore, hpre⟩
    · rw [computeMaxLagCorrelation] at hne
      rw [h] at hne
      simp at hne
    · refine ⟨hscore, ?_⟩
      intro lag hl hlt c hc
      have hsorted : List.Pairwise (· < ·) lags := by decide
      rw [hdecomp] at hsorted
      obtain ⟨hp1, hp2, hp3⟩ := List.pairwise_append.mp hsorted
      have hmem_pre : lag ∈ pre := by
        rw [hdecomp] at hl
        rcases List.mem_append.mp hl with h' | h'
        · exact h'
        · rcases List.mem_cons.mp h' with rfl | h''
          · exact absurd hlt (lt_irrefl _)
          · have := (List.pairwise_cons.mp hp2).1 lag h''
            exact absurd (lt_trans hlt this) (lt_irrefl _)
      exact hpre lag hmem_pre c hc
  · intro hall
    exact foldl_corrStep_all_none t d lags (0, 0) hall

/-- C4 witness: with no valid candidate at all the result is (0, 0). -/
theorem claim_C4_witness :
    computeMaxLagCorrelation [none, none] [none, none] 60 = (0, 0) :=
  (claim_C4 [none, none] [none, none] 60).2.2.2.2 (by decide)

/-- C2 counterexample: called exactly as the short-window scan calls it
(`max_lookback = 10`), the lag search selects lag 20 — the candidate set
is not capped at 10 time units. -/
theorem claim_C2_counterexample :
    (computeMaxLagCorrelation exC2T exC2D 10).1 = 20 ∧ ¬ (20 ≤ 10) := by decide

/-- C2 amended: the short-window score is the same lag-correlation search
over the most recent 60 aligned observations, but with the same fixed
candidate-lag set [0, 5, 10, 20, 40, 60] as the long window (the
`max_lookback=10` argument is ignored); and after the ≥ 30-row regime
filter the recent window always has more than 20 observations, so the
skip-to-0 branch (whose source guard is `> 20`, not `≥ 20`) never
triggers. -/
theorem claim_C2 (df : AlignedRows) (h : ¬ (regimeRows df).length < 30) :
    20 < (tailRows 60 (regimeRows df)).length ∧
    computeMaxLagCorrelation (stockColOf (tailRows 60 (regimeRows df)))
        (driverColOf (tailRows 60 (regimeRows df))) 10
      = computeMaxLagCorrelation (stockColOf (tailRows 60 (regimeRows df)))
        (driverColOf (tailRows 60 (regimeRows df))) 60 ∧
    lags = [0, 5, 10, 20, 40, 60] := by
  refine ⟨?_, rfl, rfl⟩
  unfold tailRows
  rw [List.length_drop]
  omega

/-- C2 witness: on the 36-row example table the recent window indeed has
more than 20 observations. -/
theorem claim_C2_witness :
    20 < (tailRows 60 (regimeRows exDf)).length :=
  (claim_C2 exDf (by decide)).1

theorem processDriver_error {d : DriverInput} {e : String} (h : d.fetch = .error e) :
    processDriver d = none := by
  simp [processDriver, h]

theorem processDriver_isSome_iff (d : DriverInput) :
    (processDriver d).isSome ↔
      ∃ s, driverScore d = some s ∧ (9/400 < s ∨ d.code = "PNICKUSDM") := by
  cases hf : d.fetch with
  | error e => simp [processDriver, driverScore, hf]
  | ok df =>
    simp only [processDriver, driverScore, hf]
    split_ifs with h1 h2 h3 <;> simp_all

theorem driverScore_some_data (d : DriverInput) (s : ℚ) (h : driverScore d = some s) :
    ∃ df, d.fetch = .ok df ∧ 30 ≤ df.length ∧ 30 ≤ (regimeRows df).length := by
  cases hf : d.fetch with
  | error e => rw [driverScore, hf] at h; exact absurd h (by simp)
  | ok df =>
    simp only [driverScore, hf] at h
    split_ifs at h with h1 h2 h3
    · exact ⟨df, rfl, by omega, by omega⟩
    · exact ⟨df, rfl, by omega, by omega⟩

theorem processDriver_some_code (d : DriverInput) (f : Finding)
    (h : processDriver d = some f) : f.code = d.code := by
  cases hf : d.fetch with
  | error e => rw [processDriver_error hf] at h; exact absurd h (by simp)
  | ok df =>
    simp only [processDriver, hf] at h
    split_ifs at h with h1 h2 h3 h4 h5
    · obtain rfl := Option.some.inj h
      rfl
    · obtain rfl := Option.some.inj h
      rfl

theorem mem_insertFindingDesc {g f : Finding} {l : List Finding} :
    g ∈ insertFindingDesc f l ↔ g = f ∨ g ∈ l := by
  induction l with
  | nil => simp [insertFindingDesc]
  | cons a l ih =>
    by_cases h : findingKey a ≤ findingKey f
    · simp only [insertFindingDesc, if_pos h]
      simp
    · simp only [insertFindingDesc, if_neg h]
      rw [List.mem_cons, ih, List.mem_cons]
      tauto

theorem mem_sortFindingsDesc {g : Finding} {l : List Finding} :
    g ∈ sortFindingsDesc l ↔ g ∈ l := by
  induction l with
  | nil => simp [sortFindingsDesc]
  | cons f l ih =>
    show g ∈ insertFindingDesc f (sortFindingsDesc l) ↔ _
    rw [mem_insertFindingDesc, ih, List.mem_cons]

theorem pairwise_insertFindingDesc (f : Finding) (l : List Finding)
    (h : l.Pairwise (fun a b => findingKey b ≤ findingKey a)) :
    (insertFindingDesc f l).Pairwise (fun a b => findingKey b ≤ findingKey a) := by
  induction l with
  | nil => simp [insertFindingDesc]
  | cons g gs ih =>
    obtain ⟨hg, hgs⟩ := List.pairwise_cons.mp h
    by_cases hle : findingKey g ≤ findingKey f
    · simp only [insertFindingDesc, if_pos hle]
      refine List.pairwise_cons.mpr ⟨?_, h⟩
      intro b hb
      rcases List.mem_cons.mp hb with rfl | hbgs
      · exact hle
      · exact le_trans (hg b hbgs) hle
    · simp only [insertFindingDesc, if_neg hle]
      refine List.pairwise_cons.mpr ⟨?_, ih hgs⟩
      intro b hb
      rcases mem_insertFindingDesc.mp hb with rfl | hbgs
      · exact le_of_lt (lt_of_not_le hle)
      · exact hg b hbgs

theorem pairwise_sortFindingsDesc (l : List Finding) :
    (sortFindingsDesc l).Pairwise (fun a b => findingKey b ≤ findingKey a) := by
  induction l with
  | nil => exact List.Pairwise.nil
  | cons f l ih => exact pairwise_insertFindingDesc f _ ih

theorem filter_insertFindingDesc (f : Finding) (l : List Finding) (k : ℚ) :
    (insertFindingDesc f l).filter (fun g => decide (findingKey g = k)) =
      if findingKey f = k then
        f :: l.filter (fun g => decide (findingKey g = k))
      else l.filter (fun g => decide (findingKey g = k)) := by
  induction l with
  | nil =>
    by_cases h : findingKey f = k <;> simp [insertFindingDesc, h]
  | cons g gs ih =>
    by_cases hle : findingKey g ≤ findingKey f
    · simp only [insertFindingDesc, if_pos hle]
      by_cases h : findingKey f = k <;> simp [List.filter_cons, h]
    · simp only [insertFindingDesc, if_neg hle]
      have hkf : findingKey f < findingKey g := lt_of_not_le hle
      by_cases hgk : findingKey g = k
      · have hfk : findingKey f ≠ k := by
          intro hfk
          exact absurd (hfk.trans hgk.symm) (ne_of_lt hkf)
        simp [List.filter_cons, hgk, hfk, ih]
      · simp [List.filter_cons, hgk, ih]

theorem filter_sortFindingsDesc (l : List Finding) (k : ℚ) :
    (sortFindingsDesc l).filter (fun g => decide (findingKey g = k)) =
      l.filter (fun g => decide (findingKey g = k)) := by
  induction l with
  | nil => rfl
  | cons f l ih =>
    show (insertFindingDesc f (sortFindingsDesc l)).filter _ = _
    rw [filter_insertFindingDesc]
    by_cases h : findingKey f = k <;> simp [List.filter_cons, h, ih]

theorem filterMap_some_comp {α β : Type} (f : α → β) (l : List α) :
    l.filterMap (fun a => some (f a)) = l.map f := by
  induction l with
  | nil => rfl
  | cons a l ih => simp [List.filterMap_cons, ih]

theorem analyze_skip (env : ScanEnv) (v : String → String → Bool × String)
    (hse : env.stockEmpty = false) :
    analyze env true v = (sortFindingsDesc (scanLoop env.inputs)).map pendingMark := by
  simp only [analyze, hse, Bool.false_eq_true, if_false, if_true]
  exact filterMap_some_comp pendingMark _

/-- C6: an exception raised while fetching, aligning, or scoring a single
candidate driver is caught at driver granularity: that driver alone is
skipped, the loop covers the remaining drivers unchanged, and `analyze`
returns the same (total, list-valued) result as if the failing driver were
absent. -/
theorem claim_C6 (ticker : String) (se : Bool) (pre post : List DriverInput)
    (d : DriverInput) (e : String) (skipV : Bool)
    (v : String → String → Bool × String) (herr : d.fetch = .error e) :
    scanLoop (pre ++ d :: post) = scanLoop (pre ++ post) ∧
    analyze ⟨ticker, se, pre ++ d :: post⟩ skipV v
      = analyze ⟨ticker, se, pre ++ post⟩ skipV v := by
  have hd : processDriver d = none := processDriver_error herr
  have h1 : scanLoop (pre ++ d :: post) = scanLoop (pre ++ post) := by
    simp [scanLoop, List.filterMap_append, List.filterMap_cons, hd]
  refine ⟨h1, ?_⟩
  simp only [analyze]
  rw [h1]

/-- C6 witness: the erroring example driver is skipped and the two
healthy neighbours are scanned as if it were absent. -/
theorem claim_C6_witness :
    scanLoop ([exInputC] ++ exInputE :: [exInput]) = scanLoop ([exInputC] ++ [exInput]) :=
  (claim_C6 "T" false [exInputC] [exInput] exInputE "boom" true exValidator rfl).1

/-- C7: a driver appears in the returned findings only if its fetch
succeeded with at least 30 aligned rows in the regime window and it
passed the inclusion rule; a driver that survives the data checks is kept
if and only if its combined score exceeds 0.15 or its code is the
force-included `PNICKUSDM`; and a universe in which every driver scores
at most 0.15 and none is force-included yields the empty list, not an
error.  The combined score here is the signed-square representative
(the square of `max(abs(long), abs(recent))` in Pearson units), so the
source's 0.15 cut is 9/400 = 0.15² on this scale: for r ≥ 0,
r > 0.15 ⟺ r² > 9/400. -/
theorem claim_C7 (env : ScanEnv) (v : String → String → Bool × String) :
    (∀ f ∈ analyze env true v,
      ∃ d ∈ env.inputs, f.code = d.code ∧
        (∃ df, d.fetch = .ok df ∧ 30 ≤ (regimeRows df).length) ∧
        ∃ s, driverScore d = some s ∧ (9/400 < s ∨ d.code = "PNICKUSDM")) ∧
    (∀ d : DriverInput, (processDriver d).isSome ↔
      ∃ s, driverScore d = some s ∧ (9/400 < s ∨ d.code = "PNICKUSDM")) ∧
    ((∀ d ∈ env.inputs, d.code ≠ "PNICKUSDM" ∧
        ∀ s, driverScore d = some s → s ≤ 9/400) →
      analyze env true v = []) := by
  refine ⟨?_, processDriver_isSome_iff, ?_⟩
  · intro f hf
    by_cases hse : env.stockEmpty
    · simp [analyze, hse] at hf
    · rw [analyze_skip env v (by simpa using hse)] at hf
      obtain ⟨f0, hf0, rfl⟩ := List.mem_map.mp hf
      have hf0' : f0 ∈ scanLoop env.inputs := mem_sortFindingsDesc.mp hf0
      obtain ⟨d, hd, hpd⟩ := List.mem_filterMap.mp hf0'
      obtain ⟨s, hs, hinc⟩ := (processDriver_isSome_iff d).mp (by rw [hpd]; rfl)
      obtain ⟨df, hdf, _, hlen2⟩ := driverScore_some_data d s hs
      exact ⟨d, hd, processDriver_some_code d f0 hpd, ⟨df, hdf, hlen2⟩, s, hs, hinc⟩
  · intro hall
    have hloop : scanLoop env.inputs = [] := by
      rw [scanLoop, List.filterMap_eq_nil_iff]
      intro d hd
      obtain ⟨hcode, hbound⟩ := hall d hd
      cases hpd : processDriver d with
      | none => rfl
      | some f =>
        obtain ⟨s, hs, hinc⟩ := (processDriver_isSome_iff d).mp (by rw [hpd]; rfl)
        rcases hinc with hgt | heq
        · exact absurd hgt (not_lt.mpr (hbound s hs))
        · exact absurd heq hcode
    by_cases hse : env.stockEmpty
    · simp [analyze, hse]
    · rw [analyze_skip env v (by simpa using hse), hloop]
      rfl

/-- C7 witness: the constant-driver universe scores 0 (below the 0.15
cut, 9/400 on the signed-square scale) and is returned as an empty
finding list. -/
theorem claim_C7_witness : analyze exEnvC true exValidator = [] :=
  (claim_C7 exEnvC exValidator).2.2 (by
    intro d hd
    have hd' : d = exInputC := by simpa [exEnvC] using hd
    subst hd'
    refine ⟨by decide, ?_⟩
    intro s hs
    have h0 : driverScore exInputC = some 0 := by decide
    rw [h0] at hs
    obtain rfl := (Option.some.inj hs).symm
    norm_num)

/-- C9: with validation skipped, the returned findings are sorted in
descending order of the combined score `max(|long corr|, |short corr|)`
of their stored fields, and findings of equal combined score keep their
original scan order: for every key value, filtering the output to that
key yields exactly the scan-ordered findings of that key. -/
theorem claim_C9 (env : ScanEnv) (v : String → String → Bool × String)
    (hse : env.stockEmpty = false) :
    (analyze env true v).Pairwise (fun a b => findingKey b ≤ findingKey a) ∧
    ∀ k : ℚ, (analyze env true v).filter (fun g => decide (findingKey g = k)) =
      ((scanLoop env.inputs).filter (fun g => decide (findingKey g = k))).map pendingMark := by
  rw [analyze_skip env v hse]
  constructor
  · rw [List.pairwise_map]
    exact pairwise_sortFindingsDesc _
  · intro k
    rw [← filter_sortFindingsDesc (scanLoop env.inputs) k, List.filter_map]
    rfl

/-- C9 witness: the example scan's output is sorted descending by
combined score. -/
theorem claim_C9_witness :
    (analyze exEnvW true exValidator).Pairwise
      (fun a b => findingKey b ≤ findingKey a) :=
  (claim_C9 exEnvW exValidator rfl).1

/-- C8 counterexample: `fetch_and_align` with an empty target input
returns an empty table normally; it does not fail — the repository
defines no `EmptyInputError` and raises nothing on this path. -/
theorem claim_C8_counterexample :
    fetchAndAlign [] [((0 : Int), some 1)] (fun _ => 0) = .ok [] := rfl

/-- C8 amended: whenever either input series has zero observations,
`fetch_and_align` returns an empty aligned table (the `(stock.empty or
macro.empty)` guard), signalling "no data" by an ordinary value instead of
raising an `EmptyInputError`. -/
theorem claim_C8 (stockS econS : TSeries) (z : Nat → ℚ)
    (h : stockS = [] ∨ econS = []) :
    fetchAndAlign stockS econS z = .ok [] := by
  rcases h with rfl | rfl
  · simp [fetchAndAlign]
  · simp [fetchAndAlign]

/-- C8 witness: an empty driver series also yields the ok-empty table. -/
theorem claim_C8_witness :
    fetchAndAlign [((5 : Int), some 2)] [] (fun _ => 1) = .ok [] :=
  claim_C8 [((5 : Int), some 2)] [] (fun _ => 1) (Or.inr rfl)

/-- C5: when the cutoff-filtered inner join of the target with every
lag-shifted driver column has no complete row, `train` returns the soft
failure `(None, None)` — embedded as `none` — and, being a total
function, does not raise. -/
theorem claim_C5 (stockSeries : TSeries) (drivers : List DriverSpec) (cutoff : Int)
    (fit : List (List ℚ) → List ℚ → ℚ × List ℚ)
    (h : completeRows (trainJoined (dropnaTS stockSeries) drivers) cutoff = []) :
    train stockSeries drivers cutoff fit = none := by
  simp [train, h]

/-- C5 witness: a driver with no timestamp overlap leaves no complete
training row, and `train` returns the soft failure. -/
theorem claim_C5_witness : train exStockB [exDrvB] 0 exFit = none :=
  claim_C5 exStockB [exDrvB] 0 exFit (by decide)

/-- C1 counterexample: a single driver with lag L = 5 whose series holds
valid data K = 10 days past the target's last day 9.  The claim puts the
last prediction at `target_last + min(L, K)` = 14 and the projection at
`max(lag)` = 5 units past the last jointly-known driver date, but the
table runs to day 19 — the driver's own last date, 0 units past it. -/
theorem claim_C1_counterexample :
    resultTimestamps (train exStock [exDrv] 0 exFit)
      = [5, 6, 7, 8, 9, 10, 11, 12, 13, 14, 15, 16, 17, 18, 19] ∧
    ¬ ((19 : Int) ≤ 9 + min 5 10) := by decide

theorem shiftCol_length (lag : Nat) (c : Col) : (shiftCol lag c).length = c.length := by
  simp [shiftCol]

theorem tsKeys_shiftTS (lag : Nat) (s : TSeries) : tsKeys (shiftTS lag s) = tsKeys s := by
  unfold tsKeys shiftTS
  rw [List.map_fst_zip]
  simp [shiftCol_length]

theorem mem_insertKey {x t : Int} {l : List Int} :
    x ∈ insertKey t l ↔ x = t ∨ x ∈ l := by
  induction l with
  | nil => simp [insertKey]
  | cons a l ih =>
    by_cases h1 : t < a
    · simp [insertKey, if_pos h1]
    · by_cases h2 : t = a
      · subst h2
        rw [show insertKey t (t :: l) = t :: l from by simp [insertKey, h1],
          List.mem_cons]
        tauto
      · simp only [insertKey, if_neg h1, if_neg h2, List.mem_cons, ih]
        tauto

theorem mem_sortDedup {x : Int} {l : List Int} : x ∈ sortDedup l ↔ x ∈ l := by
  induction l with
  | nil => simp [sortDedup]
  | cons a l ih =>
    show x ∈ insertKey a (sortDedup l) ↔ _
    rw [mem_insertKey, ih, List.mem_cons]

theorem pairwise_insertKey {t : Int} {l : List Int}
    (h : l.Pairwise (· < ·)) : (insertKey t l).Pairwise (· < ·) := by
  induction l with
  | nil => simp [insertKey]
  | cons a l ih =>
    obtain ⟨ha, hl⟩ := List.pairwise_cons.mp h
    by_cases h1 : t < a
    · simp only [insertKey, if_pos h1]
      refine List.pairwise_cons.mpr ⟨?_, h⟩
      intro b hb
      rcases List.mem_cons.mp hb with rfl | hbl
      · exact h1
      · exact lt_trans h1 (ha b hbl)
    · by_cases h2 : t = a
      · subst h2
        rw [show insertKey t (t :: l) = t :: l from by simp [insertKey, h1]]
        exact h
      · simp only [insertKey, if_neg h1, if_neg h2]
        refine List.pairwise_cons.mpr ⟨?_, ih hl⟩
        intro b hb
        rcases mem_insertKey.mp hb with rfl | hbl
        · exact lt_of_le_of_ne (not_lt.mp h1) (fun hab => h2 hab.symm)
        · exact ha b hbl

theorem pairwise_sortDedup (l : List Int) : (sortDedup l).Pairwise (· < ·) := by
  induction l with
  | nil => exact List.Pairwise.nil
  | cons a l ih => exact pairwise_insertKey ih

theorem nodup_sortDedup (l : List Int) : (sortDedup l).Nodup :=
  (pairwise_sortDedup l).imp ne_of_lt

theorem tsLookup_eq_none {s : TSeries} {t : Int} (h : t ∉ tsKeys s) :
    tsLookup s t = none := by
  have hf : s.find? (fun r => decide (r.1 = t)) = none := by
    rw [List.find?_eq_none]
    intro r hr
    simp only [decide_eq_true_eq]
    intro hrt
    exact h (hrt ▸ List.mem_map_of_mem Prod.fst hr)
  simp [tsLookup, hf]

theorem tsLookup_mem {s : TSeries} {t : Int} (h : tsLookup s t ≠ none) :
    t ∈ tsKeys s := by
  by_contra hc
  exact h (tsLookup_eq_none hc)

theorem find?_eq_some_of_nodup_keys {β : Type} {l : List (Int × β)} {r : Int × β}
    (hnd : (l.map Prod.fst).Nodup) (hr : r ∈ l) :
    l.find? (fun x => decide (x.1 = r.1)) = some r := by
  induction l with
  | nil => exact absurd hr (List.not_mem_nil r)
  | cons a l ih =>
    rw [List.map_cons] at hnd
    obtain ⟨hnd1, hnd2⟩ := List.nodup_cons.mp hnd
    rcases List.mem_cons.mp hr with rfl | hrl
    · exact List.find?_cons_of_pos l (by simp)
    · have ha : a.1 ≠ r.1 := by
        intro he
        apply hnd1
        rw [he]
        exact List.mem_map_of_mem Prod.fst hrl
      rw [List.find?_cons_of_neg l (by simp [ha])]
      exact ih hnd2 hrl

theorem tsLookup_of_mem {s : TSeries} {p : Int × Option ℚ}
    (hnd : (tsKeys s).Nodup) (hp : p ∈ s) : tsLookup s p.1 = p.2 := by
  unfold tsLookup
  rw [find?_eq_some_of_nodup_keys hnd hp]

theorem map_fst_keyed {α : Type} (g : Int → α) (keys : List Int) :
    (keys.map (fun u => (u, g u))).map Prod.fst = keys := by
  induction keys with
  | nil => rfl
  | cons a l ih => simp only [List.map_cons, ih]

theorem frameKeys_joinTS (f : Frame) (s : TSeries) :
    frameKeys (joinTS f s) = sortDedup (frameKeys f ++ tsKeys s) := by
  unfold frameKeys joinTS
  exact map_fst_keyed _ _

theorem frameKeys_frameOfTS (s : TSeries) : frameKeys (frameOfTS s) = tsKeys s := by
  unfold frameKeys frameOfTS tsKeys
  rw [List.map_map]
  rfl

theorem frameInv_rowAt {ds : List DriverSpec} {f : Frame} (hinv : frameInv ds f)
    (t : Int) :
    rowAt f t = ds.map (fun d => tsLookup (shiftTS d.lag d.series) t) := by
  obtain ⟨hcols, hkeys, hrows, hnd⟩ := hinv
  by_cases ht : t ∈ frameKeys f
  · obtain ⟨r, hr, hrt⟩ := List.mem_map.mp ht
    subst hrt
    have hfind : f.rows.find? (fun x => decide (x.1 = r.1)) = some r :=
      find?_eq_some_of_nodup_keys hnd hr
    rw [rowAt, hfind]
    exact hrows r hr
  · have hfind : f.rows.find? (fun x => decide (x.1 = t)) = none := by
      rw [List.find?_eq_none]
      intro r hr
      simp only [decide_eq_true_eq]
      intro hrt
      exact ht (hrt ▸ List.mem_map_of_mem Prod.fst hr)
    rw [rowAt, hfind, hcols]
    symm
    rw [List.eq_replicate_iff]
    refine ⟨List.length_map _ _, ?_⟩
    intro x hx
    obtain ⟨d, hd, rfl⟩ := List.mem_map.mp hx
    apply tsLookup_eq_none
    rw [tsKeys_shiftTS]
    intro hmem
    exact ht ((hkeys t).mpr ⟨d, hd, hmem⟩)

theorem frameInv_joinTS {ds : List DriverSpec} {f : Frame} (hinv : frameInv ds f)
    (d : DriverSpec) :
    frameInv (ds ++ [d]) (joinTS f (shiftTS d.lag d.series)) := by
  have hrow := frameInv_rowAt hinv
  obtain ⟨hcols, hkeys, hrows, hnd⟩ := hinv
  refine ⟨?_, ?_, ?_, ?_⟩
  · simp [joinTS, hcols]
  · intro t
    rw [frameKeys_joinTS, mem_sortDedup, List.mem_append, hkeys t, tsKeys_shiftTS]
    constructor
    · rintro (⟨d', hd', hm⟩ | hm)
      · exact ⟨d', List.mem_append_left _ hd', hm⟩
      · exact ⟨d, List.mem_append_right _ (List.mem_singleton.mpr rfl), hm⟩
    · rintro ⟨d', hd', hm⟩
      rcases List.mem_append.mp hd' with h | h
      · exact Or.inl ⟨d', h, hm⟩
      · rw [List.mem_singleton] at h
        subst h
        exact Or.inr hm
  · intro r hr
    simp only [joinTS] at hr
    obtain ⟨t, _, rfl⟩ := List.mem_map.mp hr
    rw [List.map_append, hrow t]
    rfl
  · rw [frameKeys_joinTS]
    exact nodup_sortDedup _

theorem frameInv_frameOfTS (d : DriverSpec) (hnd : (tsKeys d.series).Nodup) :
    frameInv [d] (frameOfTS (shiftTS d.lag d.series)) := by
  have hndsh : (tsKeys (shiftTS d.lag d.series)).Nodup := by
    rw [tsKeys_shiftTS]; exact hnd
  refine ⟨rfl, ?_, ?_, ?_⟩
  · intro t
    rw [frameKeys_frameOfTS, tsKeys_shiftTS]
    constructor
    · intro h
      exact ⟨d, List.mem_singleton.mpr rfl, h⟩
    · rintro ⟨d', hd', hm⟩
      rw [List.mem_singleton] at hd'
      subst hd'
      exact hm
  · intro r hr
    simp only [frameOfTS] at hr
    obtain ⟨p, hp, rfl⟩ := List.mem_map.mp hr
    simp only [List.map_cons, List.map_nil]
    rw [tsLookup_of_mem hndsh hp]
  · rw [frameKeys_frameOfTS]
    exact hndsh

theorem foldJoin_inv (rest : List DriverSpec) :
    ∀ (pre : List DriverSpec) (f : Frame), frameInv pre f → f.rows ≠ [] →
    frameInv (pre ++ rest) (rest.foldl (fun acc d =>
      if acc.rows.isEmpty then frameOfTS (shiftTS d.lag d.series)
      else joinTS acc (shiftTS d.lag d.series)) f) := by
  induction rest with
  | nil =>
    intro pre f hinv _
    simpa using hinv
  | cons d rest ih =>
    intro pre f hinv hne
    simp only [List.foldl_cons]
    have hemp : f.rows.isEmpty = false := by
      cases hf : f.rows with
      | nil => exact absurd hf hne
      | cons a l => rfl
    rw [if_neg (by simp [hemp])]
    have hinv' := frameInv_joinTS hinv d
    have hrows' : (joinTS f (shiftTS d.lag d.series)).rows ≠ [] := by
      obtain ⟨r, hr⟩ := List.exists_mem_of_ne_nil f.rows hne
      have ht : r.1 ∈ sortDedup (frameKeys f ++ tsKeys (shiftTS d.lag d.series)) :=
        mem_sortDedup.mpr (List.mem_append_left _ (List.mem_map_of_mem Prod.fst hr))
      intro hcon
      simp only [joinTS, List.map_eq_nil_iff] at hcon
      rw [hcon] at ht
      exact List.not_mem_nil _ ht
    have := ih (pre ++ [d]) _ hinv' hrows'
    simpa using this

theorem fullJoined_inv (drivers : List DriverSpec) (hne : drivers ≠ [])
    (hser : ∀ d ∈ drivers, d.series ≠ [])
    (hnd : ∀ d ∈ drivers, (tsKeys d.series).Nodup) :
    frameInv drivers (fullJoined drivers) := by
  cases drivers with
  | nil => exact absurd rfl hne
  | cons d rest =>
    unfold fullJoined
    simp only [List.foldl_cons]
    rw [if_pos (by rfl)]
    have hbase : frameInv [d] (frameOfTS (shiftTS d.lag d.series)) :=
      frameInv_frameOfTS d (hnd d (List.mem_cons_self d rest))
    have hbrows : (frameOfTS (shiftTS d.lag d.series)).rows ≠ [] := by
      have hs := hser d (List.mem_cons_self d rest)
      simp only [frameOfTS, ne_eq, List.map_eq_nil_iff]
      intro hcon
      apply hs
      have hlen : (shiftTS d.lag d.series).length = d.series.length := by
        simp [shiftTS, List.length_zip, shiftCol_length]
      rw [hcon] at hlen
      exact List.eq_nil_of_length_eq_zero hlen.symm
    have := foldJoin_inv rest [d] _ hbase hbrows
    simpa using this

theorem train_timestamps (stockSeries : TSeries) (drivers : List DriverSpec)
    (cutoff : Int) (fit : List (List ℚ) → List ℚ → ℚ × List ℚ)
    (hsome : (train stockSeries drivers cutoff fit).isSome) :
    resultTimestamps (train stockSeries drivers cutoff fit)
      = (completeRows (fullJoined drivers) cutoff).map Prod.fst := by
  by_cases hemp : (completeRows (trainJoined (dropnaTS stockSeries) drivers) cutoff).isEmpty
  · rw [train, if_pos hemp] at hsome
    exact absurd hsome (by simp)
  · rw [train, if_neg hemp]
    simp only [resultTimestamps]
    rw [List.map_map]
    rfl

theorem mem_completeRows {f : Frame} {cutoff t : Int} :
    t ∈ (completeRows f cutoff).map Prod.fst ↔
      ∃ r ∈ f.rows, r.1 = t ∧ cutoff ≤ t ∧ ∀ x ∈ r.2, x ≠ none := by
  unfold completeRows
  constructor
  · intro h
    obtain ⟨r, hr, rfl⟩ := List.mem_map.mp h
    have h2 := List.mem_filter.mp hr
    have h3 := List.mem_filter.mp h2.1
    refine ⟨r, h3.1, rfl, by simpa using h3.2, ?_⟩
    intro x hx
    have := (List.all_eq_true.mp h2.2) x hx
    rwa [Option.isSome_iff_ne_none] at this
  · rintro ⟨r, hr, rfl, hc, hall⟩
    refine List.mem_map.mpr ⟨r, ?_, rfl⟩
    refine List.mem_filter.mpr ⟨List.mem_filter.mpr ⟨hr, by simpa using hc⟩, ?_⟩
    rw [List.all_eq_true]
    intro x hx
    exact Option.isSome_iff_ne_none.mpr (hall x hx)

/-- C1 amended: for a non-degenerate driver selection (at least one
driver, each with a nonempty, duplicate-free-index series) and a
successful `train`, the fair-value table has a row at exactly the
timestamps ≥ cutoff at which every driver's position-shifted series
carries a value.  The projection zone is therefore bounded by each
driver's own index — pandas `shift` moves values within the index and
never extends it — and reaches exactly the latest timestamp at which all
shifted driver values are simultaneously present, not `max(lag)` units
beyond it; a driver with data K units past the target's last timestamp
and enough history contributes predictions through `target_last + K`,
not `target_last + min(lag, K)`. -/
theorem claim_C1 (stockSeries : TSeries) (drivers : List DriverSpec) (cutoff : Int)
    (fit : List (List ℚ) → List ℚ → ℚ × List ℚ)
    (hne : drivers ≠ []) (hser : ∀ d ∈ drivers, d.series ≠ [])
    (hnd : ∀ d ∈ drivers, (tsKeys d.series).Nodup)
    (hsome : (train stockSeries drivers cutoff fit).isSome) (t : Int) :
    t ∈ resultTimestamps (train stockSeries drivers cutoff fit) ↔
      cutoff ≤ t ∧ ∀ d ∈ drivers, tsLookup (shiftTS d.lag d.series) t ≠ none := by
  rw [train_timestamps stockSeries drivers cutoff fit hsome, mem_completeRows]
  obtain ⟨hcols, hkeys, hrows, hndk⟩ := fullJoined_inv drivers hne hser hnd
  constructor
  · rintro ⟨r, hr, rfl, hc, hall⟩
    refine ⟨hc, ?_⟩
    intro d hd
    apply hall
    rw [hrows r hr]
    exact List.mem_map_of_mem _ hd
  · rintro ⟨hc, hlk⟩
    obtain ⟨d0, hd0⟩ := List.exists_mem_of_ne_nil drivers hne
    have ht : t ∈ frameKeys (fullJoined drivers) := by
      apply (hkeys t).mpr
      refine ⟨d0, hd0, ?_⟩
      have h' := tsLookup_mem (hlk d0 hd0)
      rwa [tsKeys_shiftTS] at h'
    obtain ⟨r, hr, hrt⟩ := List.mem_map.mp ht
    subst hrt
    refine ⟨r, hr, rfl, hc, ?_⟩
    intro x hx
    rw [hrows r hr] at hx
    obtain ⟨d, hd, rfl⟩ := List.mem_map.mp hx
    exact hlk d hd

/-- C1 witness: day 19 — ten days past the target's last day — carries a
prediction because the driver's shifted series has a value there. -/
theorem claim_C1_witness :
    (19 : Int) ∈ resultTimestamps (train exStock [exDrv] 0 exFit) :=
  (claim_C1 exStock [exDrv] 0 exFit (by simp) (by decide) (by decide)
    (by decide) 19).mpr (by decide)

end LogicRadar
